import Mathlib

/-!
Shallow embedding of the ustr string utility library (headers check.hpp,
manipulate.hpp, utility.hpp) together with proofs about it.  C++
std::string values are modelled as List Char; std::size_t arithmetic is
modelled on Nat, and the few places where the C++ code can throw or wrap
are modelled explicitly and documented at the definition.  Loops are
modelled as fuelled structural recursions; in each case the fuel handed to
the loop is shown (in the comment at the wrapper) to dominate the number
of iterations the C++ loop can perform, so the fuelled function computes
the same fixpoint as the source.
-/

namespace Ustr

/-- ASCII toupper, as C toupper in the C locale restricted to ASCII. -/
def asciiUpper (c : Char) : Char :=
  if 'a' ≤ c ∧ c ≤ 'z' then Char.ofNat (c.toNat - 32) else c

/-- ASCII isalpha, as C isalpha in the C locale restricted to ASCII. -/
def asciiIsAlpha (c : Char) : Bool :=
  decide (('a' ≤ c ∧ c ≤ 'z') ∨ ('A' ≤ c ∧ c ≤ 'Z'))

/-- ustr::details::compare_char from check.hpp: equality of two
characters, case-insensitively unless sensitive is set. -/
def compare_char (ch0 ch1 : Char) (sensitive : Bool) : Bool :=
  if sensitive then ch0 == ch1 else asciiUpper ch0 == asciiUpper ch1

/-- The common scanning loop of ustr::begin_with and ustr::end_with
(check.hpp): walk the pattern against the subject, returning true early
when the counter, decremented at each matching character, reaches zero
(the C++ test is a pre-decrement against a size_t, so it fires exactly
when the counter is 1), true when the pattern is exhausted, and false on
the first mismatch.  The subject is at least as long as the pattern at
every call site, so the third arm is never reached from the wrappers. -/
def matchLoop (s pat : List Char) (sensitive : Bool) (count : Nat) : Bool :=
  match pat, s with
  | [], _ => true
  | c1 :: p1, c0 :: s1 =>
    if compare_char c0 c1 sensitive then
      if count = 1 then true else matchLoop s1 p1 sensitive (count - 1)
    else false
  | _ :: _, [] => false

/-- ustr::begin_with from check.hpp.  The C++ function first compares the
addresses of its two std::string arguments; that aliasing information is
not representable on values, so it is passed explicitly as sameRef (the
caller of the model sets it to true exactly when the C++ caller passes the
same object twice). -/
def begin_with (s pre : List Char) (sensitive : Bool) (count : Nat) (sameRef : Bool) : Bool :=
  if sameRef then true
  else if s.length < pre.length then false
  else if s.isEmpty || pre.isEmpty then false
  else matchLoop s pre sensitive (if count = 0 then s.length else count)

/-- ustr::end_with from check.hpp: identical to begin_with but scanning
both strings from the back (reverse iterators). -/
def end_with (s suf : List Char) (sensitive : Bool) (count : Nat) (sameRef : Bool) : Bool :=
  if sameRef then true
  else if s.length < suf.length then false
  else if s.isEmpty || suf.isEmpty then false
  else matchLoop s.reverse suf.reverse sensitive (if count = 0 then s.length else count)

/-- The scanning loop of ustr::compare (check.hpp): walk both strings,
return true early when the decremented counter reaches zero (pre-decrement
against size_t, firing exactly at counter 1), and otherwise true only if
both strings are exhausted together. -/
def compareLoop (s0 s1 : List Char) (sensitive : Bool) (count : Nat) : Bool :=
  match s0, s1 with
  | c0 :: t0, c1 :: t1 =>
    if compare_char c0 c1 sensitive then
      if count = 1 then true else compareLoop t0 t1 sensitive (count - 1)
    else false
  | [], [] => true
  | _, _ => false

/-- ustr::compare from check.hpp. -/
def compare (s0 s1 : List Char) (sensitive : Bool) (count : Nat) : Bool :=
  compareLoop s0 s1 sensitive (if count = 0 then max s0.length s1.length else count)

/-- Does pat match at the head of s under the given case policy?  This is
the element-by-element comparison performed by std::search with the
compare_char_t predicate. -/
def matchAt (s pat : List Char) (sensitive : Bool) : Bool :=
  match pat, s with
  | [], _ => true
  | c1 :: p1, c0 :: s1 => compare_char c0 c1 sensitive && matchAt s1 p1 sensitive
  | _ :: _, [] => false

/-- std::search over the model: the least position p with i ≤ p and
p + pat.length ≤ s.length at which pat matches, none when there is none.
Structural on fuel; fuel s.length + 1 - i dominates the scan length. -/
def searchFrom (fuel : Nat) (s pat : List Char) (sensitive : Bool) (i : Nat) : Option Nat :=
  match fuel with
  | 0 => none
  | fuel + 1 =>
    if i + pat.length ≤ s.length then
      if matchAt (s.drop i) pat sensitive then some i
      else searchFrom fuel s pat sensitive (i + 1)
    else none

/-- The counting loop of ustr::count (check.hpp): repeatedly std::search
from position i; after each hit at p the C++ code advances the iterator by
one (++it), so the next search starts at p + 1.  Each round strictly
increases the start position, which stays at most s.length, so fuel
s.length + 1 dominates the number of rounds. -/
def countLoop (fuel : Nat) (s pat : List Char) (sensitive : Bool) (i : Nat) : Nat :=
  match fuel with
  | 0 => 0
  | fuel + 1 =>
    match searchFrom (s.length + 1 - i) s pat sensitive i with
    | some p => 1 + countLoop fuel s pat sensitive (p + 1)
    | none => 0

/-- ustr::count from check.hpp. -/
def count (s pat : List Char) (sensitive : Bool) : Nat :=
  if s.isEmpty || pat.isEmpty then 0 else countLoop (s.length + 1) s pat sensitive 0

/-- ustr::word_is_among from check.hpp.  Note that the ends_with branch of
the C++ source calls ustr::begin_with, not ustr::end_with; the model
reproduces that call faithfully.  The control word is a separate object
from every list entry at the call sites considered, so begin_with and
compare are called with sameRef false (compare takes no such flag). -/
def word_is_among (control : List Char) (words : List (List Char))
    (sensitive begins ends exact : Bool) : Bool :=
  match words with
  | [] => false
  | w :: rest =>
    (begins && begin_with w control sensitive 0 false) ||
    (ends && begin_with w control sensitive 0 false) ||
    (exact && compare control w sensitive 0) ||
    word_is_among control rest sensitive begins ends exact

/-- ustr::decimal_to_binary_string from utility.hpp.  The C++ code forms
the 64-character bit string of std::bitset<64>(value) and returns
binary_str.substr(64 - length).  The argument is an unsigned long, so the
value is reduced modulo 2 to the 64.  When length exceeds 64 the position
64 - length underflows (size_t arithmetic) to a value greater than the
64-character string, and substr throws std::out_of_range; that failure is
modelled as none. -/
def decimal_to_binary_string (value : Nat) (length : Nat) : Option (List Char) :=
  let v := value % 2 ^ 64
  let bits := (List.range 64).map (fun i => if v / 2 ^ (63 - i) % 2 = 1 then '1' else '0')
  if length ≤ 64 then some (bits.drop (64 - length)) else none

/-- The digit string the spec asks decimal_to_binary_string for: the low
length bits of the value, most significant first. -/
def binStringSpec (value : Nat) (length : Nat) : List Char :=
  (List.range length).map (fun i => if value / 2 ^ (length - 1 - i) % 2 = 1 then '1' else '0')

/-- ustr::get_ordinal from utility.hpp, at integer type Nat: the decimal
rendering of the value followed by the suffix chosen from
th/st/nd/rd by the last two digits. -/
def get_ordinal (value : Nat) : String :=
  let ord0 := value % 100
  let ord1 := if ord0 / 10 = 1 then 0 else ord0
  let ord2 := ord1 % 10
  let ord3 := if ord2 > 3 then 0 else ord2
  Nat.repr value ++ (List.getD [ "th", "st", "nd", "rd" ] ord3 "th")

/-- The loop of ustr::to_human_size (utility.hpp).  State: bytes is the
running integer value, index the unit reached, and n the numerator of the
double double_bytes in units of 1/1024 (every value the C++ double takes
on a path where it survives to the output is an integer divided by 1024
and is below 2 to the 53, so the double arithmetic is exact).  The loop
body runs at most four times (index < 4), so fuel 5 dominates it. -/
def humanLoop (fuel : Nat) (bytes index n : Nat) : Nat × Nat :=
  match fuel with
  | 0 => (n, index)
  | fuel + 1 =>
    if 1024 ≤ bytes ∧ index < 4 then humanLoop fuel (bytes / 1024) (index + 1) bytes
    else (n, index)

/-- Rounding of 100 * n / 1024 to the nearest integer, ties to even: the
number of hundredths printed by printf %.2f for the exact double n/1024
under the default rounding mode. -/
def hundredths (n : Nat) : Nat :=
  let q := 100 * n / 1024
  let r := 100 * n % 1024
  q + (if 512 < r ∨ (r = 512 ∧ q % 2 = 1) then 1 else 0)

/-- Two-digit zero-padded rendering of a value below 100. -/
def pad2 (k : Nat) : String :=
  if k < 10 then "0" ++ Nat.repr k else Nat.repr k

/-- Fixed two-decimal rendering of n/1024, as std::fixed with
std::setprecision(2) prints the exact double n/1024. -/
def fixed2 (n : Nat) : String :=
  Nat.repr (hundredths n / 100) ++ "." ++ pad2 (hundredths n % 100)

/-- The suffix table of ustr::to_human_size. -/
def sizeSuffixes : List String := [ "B", "KB", "MB", "GB", "TB" ]

/-- The effect of std::setw(2) with std::right on a suffix string: pad it
on the left with spaces to width two. -/
def padLeft2 (s : String) : String :=
  if s.length < 2 then " ".pushn ' ' (1 - s.length) ++ s else s

/-- ustr::to_human_size from utility.hpp. -/
def to_human_size (bytes : Nat) : String :=
  let p := humanLoop 5 bytes 0 (1024 * bytes)
  fixed2 p.1 ++ " " ++ padLeft2 (sizeSuffixes.getD p.2 "")

/-- The unit index to_human_size ends on, in closed form: the number of
times the byte count can be divided down by 1024, capped at 4. -/
def unitIndexSpec (bytes : Nat) : Nat :=
  if bytes < 1024 then 0
  else if bytes < 1024 ^ 2 then 1
  else if bytes < 1024 ^ 3 then 2
  else if bytes < 1024 ^ 4 then 3
  else 4

/-- The numerator (in units of 1/1024) of the value to_human_size prints,
in closed form: the byte count when no division happens, and otherwise the
byte count integrally divided by 1024 one time fewer than the unit index. -/
def scaledNumSpec (bytes : Nat) : Nat :=
  if bytes < 1024 then 1024 * bytes else bytes / 1024 ^ (unitIndexSpec bytes - 1)

/-- The default whitespace set of ustr::split_paragraph. -/
def defaultWS : List Char := [' ', '\t', '\r']

/-- std::string::find_last_of and find_last_not_of over the model: the
greatest position at most min k (s.length - 1) whose character satisfies
p, none when there is none.  Walking down from k models the clamping of
the start position to the last character. -/
def findLastFrom (s : List Char) (p : Char → Bool) : Nat → Option Nat
  | 0 => if h : 0 < s.length then (if p (s.get ⟨0, h⟩) then some 0 else none) else none
  | k + 1 =>
    if h : k + 1 < s.length then
      (if p (s.get ⟨k + 1, h⟩) then some (k + 1) else findLastFrom s p k)
    else findLastFrom s p k

/-- std::string::find_first_of and find_first_not_of over the model: the
least position at least i whose character satisfies p, none when there is
none. -/
def findIdxFrom (p : Char → Bool) (s : List Char) (i : Nat) : Option Nat :=
  match (s.drop i).findIdx? p with
  | some j => some (i + j)
  | none => none

/-- The loop of ustr::split_paragraph (manipulate.hpp).  Each iteration
searches backward from index + 1 for a whitespace character, backward
again for the last non-whitespace before it, replaces the whitespace run
that follows that position with a single newline, optionally pulls the
scan origin back to an existing newline found shortly after the
replacement, and advances by width + 1.  When find_first_not_of finds no
non-whitespace (npos), to_trim = npos - index - 1 makes the replacement
reach the end of the string, and the subsequent find_first_of starts at
index + 1 + to_trim = npos, returning npos, so the nearby-newline
comparison npos < index + width is false (no size_t wraparound occurs for
any width representable alongside the string length); that branch is
modelled explicitly.  Each iteration that does not return replaces at
least one character of the whitespace set with a newline, so when the
newline character is not itself in the whitespace set the loop runs at
most as many iterations as there are characters, and fuel s.length + 1
dominates it. -/
def splitLoop (fuel : Nat) (s : List Char) (ws : List Char) (width : Nat) (index : Nat) :
    List Char :=
  match fuel with
  | 0 => s
  | fuel + 1 =>
    if index < s.length then
      match findLastFrom s (fun c => ws.contains c) (index + 1) with
      | none => s
      | some p =>
        match findLastFrom s (fun c => !ws.contains c) p with
        | none => s
        | some q =>
          match findIdxFrom (fun c => !ws.contains c) s (q + 1) with
          | some r =>
            let toTrim := r - q - 1
            let s2 := s.take (q + 1) ++ '\n' :: s.drop (q + 1 + toTrim)
            let idx2 := match findIdxFrom (fun c => c == '\n') s2 (q + 1 + toTrim) with
                        | some nl => if nl < q + width then nl else q
                        | none => q
            splitLoop fuel s2 ws width (idx2 + width + 1)
          | none =>
            splitLoop fuel (s.take (q + 1) ++ ['\n']) ws width (q + width + 1)
    else s

/-- ustr::split_paragraph from manipulate.hpp. -/
def split_paragraph (s : List Char) (width : Nat) (ws : List Char) : List Char :=
  splitLoop (s.length + 1) s ws width (width - 1)

/-- Length of the run of copies of c at the head of the list: the distance
the inner j scans of ustr::merge_paragraph travel. -/
def countRun (c : Char) : List Char → Nat
  | [] => 0
  | x :: xs => if x = c then countRun c xs + 1 else 0

/-- The loop of ustr::merge_paragraph (manipulate.hpp), starting at
position i = 1.  On a space at i the run of k spaces from i is erased down
to one space; on a newline at i the first k - 1 newlines of a run of
k > 1 are replaced by one space (leaving a space followed by the last
newline) and i skips ahead one extra place, while a lone newline is
replaced by a space.  Each iteration either shortens the string or moves i
forward, so fuel s.length + 1 dominates the loop. -/
def mergeLoop (fuel : Nat) (s : List Char) (i : Nat) : List Char :=
  match fuel with
  | 0 => s
  | fuel + 1 =>
    if h : i < s.length then
      let c := s.get ⟨i, h⟩
      if c = ' ' then
        let k := 1 + countRun ' ' (s.drop (i + 1))
        mergeLoop fuel (s.take i ++ ' ' :: s.drop (i + k)) (i + 1)
      else if c = '\n' then
        let k := 1 + countRun '\n' (s.drop (i + 1))
        if 1 < k then mergeLoop fuel (s.take i ++ ' ' :: s.drop (i + k - 1)) (i + 2)
        else mergeLoop fuel (s.take i ++ ' ' :: s.drop (i + 1)) (i + 1)
      else mergeLoop fuel s (i + 1)
    else s

/-- ustr::merge_paragraph from manipulate.hpp. -/
def merge_paragraph (s : List Char) : List Char :=
  mergeLoop (s.length + 1) s 1

/-- The loop of ustr::capitalize (manipulate.hpp): walk the string; at
position 0 holding an alphabetic character, or at any later position
whose predecessor in the current string is a space, uppercase the
character and decrement the counter, stopping when it reaches zero. -/
def capLoop (fuel : Nat) (s : List Char) (pos : Nat) (count : Nat) : List Char :=
  match fuel with
  | 0 => s
  | fuel + 1 =>
    if h : pos < s.length ∧ 0 < count then
      if (pos = 0 ∧ asciiIsAlpha (s.get ⟨pos, h.1⟩)) ∨ (0 < pos ∧ s[pos - 1]? = some ' ') then
        let s2 := s.set pos (asciiUpper (s.get ⟨pos, h.1⟩))
        if count = 1 then s2 else capLoop fuel s2 (pos + 1) (count - 1)
      else capLoop fuel s (pos + 1) count
    else s

/-- ustr::capitalize from manipulate.hpp. -/
def capitalize (s : List Char) (count : Nat) : List Char :=
  if s.isEmpty then s else capLoop (s.length + 1) s 0 (if count = 0 then s.length else count)

/-- Closed form of the merge_paragraph loop on the suffix it scans: each
maximal run of spaces becomes one space, a lone newline becomes one
space, and a maximal run of two or more newlines becomes a space followed
by one newline; all other characters pass through. -/
def runTransform (s : List Char) : List Char :=
  match s with
  | [] => []
  | c :: rest =>
    if c = ' ' then ' ' :: runTransform (rest.drop (countRun ' ' rest))
    else if c = '\n' then
      if countRun '\n' rest = 0 then ' ' :: runTransform rest
      else ' ' :: '\n' :: runTransform (rest.drop (countRun '\n' rest))
    else c :: runTransform rest
termination_by s.length
decreasing_by
  all_goals simp
  all_goals omega

/-- Is the character one of the four whitespace characters relevant to the
reflow engine (the default whitespace set plus the newline)? -/
def wsLike (c : Char) : Bool :=
  c = ' ' || c = '\t' || c = '\r' || c = '\n'

/-- Does the optional character fail to be reflow whitespace (out-of-range
lookups count as non-whitespace)? -/
def optNonWs (o : Option Char) : Bool :=
  match o with
  | some c => !wsLike c
  | none => true

/-- Texts over which the round-trip claim is settled: every character is
either non-whitespace or a space whose two neighbours exist and are
non-whitespace (so all whitespace runs are lone interior spaces, and the
text is its own whitespace-collapsed form). -/
def NiceP (t : List Char) : Prop :=
  ∀ i, i < t.length →
    optNonWs t[i]? = true ∨
    (t[i]? = some ' ' ∧ 0 < i ∧ i + 1 < t.length ∧
      optNonWs t[i - 1]? = true ∧ optNonWs t[i + 1]? = true)

instance (t : List Char) : Decidable (NiceP t) := by
  unfold NiceP
  infer_instance

/-- Is the optional character a space or newline? -/
def wsSp (o : Option Char) : Bool :=
  o == some ' ' || o == some '\n'

/-- No two adjacent characters are both space-or-newline. -/
def SparseP (s : List Char) : Prop :=
  ∀ i, (wsSp s[i]? && wsSp s[i + 1]?) = false

/-- Map a newline to a space and leave everything else unchanged. -/
def unNl (c : Char) : Char :=
  if c = '\n' then ' ' else c

/-- Simulation between a text and an intermediate string of the
split_paragraph loop: same length, and each position holds either the
original character or a newline standing where a space stood. -/
def Sim (t s : List Char) : Prop :=
  s.length = t.length ∧
    ∀ i, i < t.length → (s[i]? = t[i]? ∨ (t[i]? = some ' ' ∧ s[i]? = some '\n'))

/-- The positions at which the capitalize loop fires, computed on the
original string: position 0 when it holds an alphabetic character, and
any later position directly preceded by a space character. -/
def isTrig (s : List Char) (i : Nat) : Bool :=
  if i = 0 then
    match s[0]? with
    | some c => asciiIsAlpha c
    | none => false
  else s[i - 1]? == some ' '

/-- The number of trigger positions j with a ≤ j < a + n. -/
def trigBetween (s : List Char) (a : Nat) : Nat → Nat
  | 0 => 0
  | n + 1 => (if isTrig s a then 1 else 0) + trigBetween s (a + 1) n

/-- Uppercase the characters at the positions (offset by i) satisfying
cond, leaving all others unchanged. -/
def applyUpFrom (cond : Nat → Bool) (i : Nat) : List Char → List Char
  | [] => []
  | c :: rest => (if cond i then asciiUpper c else c) :: applyUpFrom cond (i + 1) rest

/-- Declarative description of capitalize with a positive count: uppercase
exactly the trigger positions whose rank among the triggers is below the
count. -/
def capSpec (s : List Char) (count : Nat) : List Char :=
  applyUpFrom (fun i => isTrig s i && decide (trigBetween s 0 i < count)) 0 s

/-! Helper lemmas. -/

theorem findLastFrom_none (s : List Char) (p : Char → Bool)
    (hs : ∀ c ∈ s, p c = false) : ∀ k, findLastFrom s p k = none := by
  intro k
  induction k with
  | zero =>
    unfold findLastFrom
    split
    · next h => rw [hs _ (List.get_mem ..)]; simp
    · rfl
  | succ k ih =>
    unfold findLastFrom
    split
    · next h => rw [hs _ (List.get_mem ..)]; simpa using ih
    · exact ih

theorem humanLoop_step (fuel b idx n : Nat) (hb : 1024 ≤ b) (hi : idx < 4) :
    humanLoop (fuel + 1) b idx n = humanLoop fuel (b / 1024) (idx + 1) b := by
  rw [humanLoop]
  rw [if_pos ⟨hb, hi⟩]

theorem humanLoop_stop (fuel b idx n : Nat) (h : ¬(1024 ≤ b ∧ idx < 4)) :
    humanLoop (fuel + 1) b idx n = (n, idx) := by
  rw [humanLoop]
  rw [if_neg h]

theorem humanLoop_closed (bytes : Nat) :
    humanLoop 5 bytes 0 (1024 * bytes) = (scaledNumSpec bytes, unitIndexSpec bytes) := by
  have d2 : bytes / 1024 / 1024 = bytes / 1048576 := by
    rw [Nat.div_div_eq_div_mul]
  have d3 : bytes / 1024 / 1024 / 1024 = bytes / 1073741824 := by
    rw [Nat.div_div_eq_div_mul, Nat.div_div_eq_div_mul]
  by_cases h1 : bytes < 1024
  · rw [humanLoop_stop _ _ _ _ (by omega)]
    simp [scaledNumSpec, unitIndexSpec, h1]
  · rw [humanLoop_step _ _ _ _ (by omega) (by norm_num)]
    by_cases h2 : bytes < 1048576
    · rw [humanLoop_stop _ _ _ _ (by
        intro hc
        rw [Nat.le_div_iff_mul_le (by norm_num : 0 < 1024)] at hc
        omega)]
      simp [scaledNumSpec, unitIndexSpec, h1, h2]
    · rw [humanLoop_step _ _ _ _ (by
        rw [Nat.le_div_iff_mul_le (by norm_num : 0 < 1024)]
        omega) (by norm_num)]
      by_cases h3 : bytes < 1073741824
      · rw [humanLoop_stop _ _ _ _ (by
          intro hc
          rw [d2, Nat.le_div_iff_mul_le (by norm_num : 0 < 1048576)] at hc
          omega)]
        simp [scaledNumSpec, unitIndexSpec, h1, h2, h3]
      · rw [humanLoop_step _ _ _ _ (by
          rw [d2, Nat.le_div_iff_mul_le (by norm_num : 0 < 1048576)]
          omega) (by norm_num)]
        by_cases h4 : bytes < 1099511627776
        · rw [humanLoop_stop _ _ _ _ (by
            intro hc
            rw [d3, Nat.le_div_iff_mul_le (by norm_num : 0 < 1073741824)] at hc
            omega)]
          simp [scaledNumSpec, unitIndexSpec, h1, h2, h3, h4, d2]
        · rw [humanLoop_step _ _ _ _ (by
            rw [d3, Nat.le_div_iff_mul_le (by norm_num : 0 < 1073741824)]
            omega) (by norm_num)]
          rw [humanLoop_stop _ _ _ _ (by omega)]
          simp [scaledNumSpec, unitIndexSpec, h1, h2, h3, h4, d3]

/-! Claim theorems. -/

/-- C3: the counting loop of ustr::count advances only one character past
each hit, so it counts occurrences that overlap an earlier hit: on the
haystack aaa and the needle aa it reports 2 where a non-overlapping scan
finds a single occurrence; the claim's own concrete example, whose
occurrences cannot overlap, still evaluates to 3. -/
theorem count_overlap_eval :
    count ( "aaa".toList) ( "aa".toList) true = 2 ∧
    count ( "apple orange apple apple".toList) ( "apple".toList) false = 3 := by
  constructor
  · decide
  · decide

/-- C4: with only the suffix policy flag set, ustr::word_is_among tests
each list entry with ustr::begin_with rather than ustr::end_with, so it
answers false for the control word le against the entry apple even though
that entry does end with le (as ustr::end_with itself confirms). -/
theorem word_is_among_ends_eval :
    word_is_among ( "le".toList) [ "apple".toList ] true false true false = false ∧
    end_with ( "apple".toList) ( "le".toList) true 0 false = true := by
  constructor
  · decide
  · decide

/-- C5 counterexample: at length 65 the substr position underflows and the
call fails with std::out_of_range instead of returning a 65-character
string, contradicting the claim that every length succeeds. -/
theorem decimal_to_binary_string_len65 : decimal_to_binary_string 5 65 = none := by
  rfl

/-- C5 amended: for every length of at most 64 the call completes and
returns exactly length characters, the low length bits of the value most
significant first. -/
theorem decimal_to_binary_string_ok (v l : Nat) (h : l ≤ 64) :
    decimal_to_binary_string v l = some (binStringSpec v l) ∧ (binStringSpec v l).length = l := by
  constructor
  · simp only [decimal_to_binary_string, binStringSpec]
    rw [if_pos h]
    congr 1
    apply List.ext_getElem?
    intro i
    rw [List.getElem?_drop]
    by_cases hi : i < l
    · rw [List.getElem?_map, List.getElem?_map]
      rw [List.getElem?_range (by omega : 64 - l + i < 64), List.getElem?_range hi]
      simp only [Option.map_some']
      congr 1
      have he : 63 - (64 - l + i) = l - 1 - i := by omega
      rw [he]
      have hmod : v % 2 ^ 64 / 2 ^ (l - 1 - i) % 2 = v / 2 ^ (l - 1 - i) % 2 := by
        have h64 : (2 : Nat) ^ 64 = 2 ^ (l - 1 - i) * 2 ^ (64 - (l - 1 - i)) := by
          rw [← pow_add]
          congr 1
          omega
        rw [h64, Nat.mod_mul_right_div_self]
        exact Nat.mod_mod_of_dvd _ (dvd_pow_self 2 (by omega))
      rw [hmod]
    · rw [List.getElem?_eq_none, List.getElem?_eq_none]
      · simp
        omega
      · simp
        omega
  · simp [binStringSpec]

/-- C5 witness: the amended theorem applied at value 5, length 8 yields
the eight-character string 00000101. -/
theorem decimal_to_binary_string_ok_witness :
    decimal_to_binary_string 5 8 = some ( "00000101".toList) := by
  have h := decimal_to_binary_string_ok 5 8 (by decide)
  rw [h.1]
  decide

/-- C6 counterexample: the unit is printed through std::setw(2) with
std::right, so the one-character unit B is padded with an extra space and
to_human_size 0 is the seven-character string 0.00--B (two spaces),
not 0.00-B as the claim states. -/
theorem to_human_size_zero_eval :
    to_human_size 0 = "0.00  B" ∧ to_human_size 0 ≠ "0.00 B" := by
  constructor
  · decide
  · decide

/-- C6 amended: to_human_size prints the scaled value (the running byte
count just before its last division, over 1024) with two decimal digits,
one space, and the unit right-aligned in a two-character field, the unit
index being the number of 1024-divisions capped at four; in particular
1024 bytes print as 1.00 KB and 0 bytes as 0.00 followed by two spaces
and B. -/
theorem to_human_size_characterization :
    (∀ bytes : Nat,
      to_human_size bytes =
        fixed2 (scaledNumSpec bytes) ++ " " ++
          padLeft2 (sizeSuffixes.getD (unitIndexSpec bytes) "")) ∧
    to_human_size 1024 = "1.00 KB" ∧ to_human_size 0 = "0.00  B" := by
  refine ⟨fun bytes => ?_, by decide, by decide⟩
  simp only [to_human_size, humanLoop_closed]

/-- C7: get_ordinal renders the value in decimal and appends st, nd, rd
for last digit 1, 2, 3 and th otherwise, with last two digits 11, 12, 13
taking th. -/
theorem get_ordinal_spec (n : Nat) :
    get_ordinal n = Nat.repr n ++
      (if n % 100 = 11 ∨ n % 100 = 12 ∨ n % 100 = 13 then "th"
       else if n % 10 = 1 then "st"
       else if n % 10 = 2 then "nd"
       else if n % 10 = 3 then "rd"
       else "th") := by
  have key : ∀ m : Nat, m < 100 →
      (List.getD [ "th", "st", "nd", "rd" ]
        (if (if m / 10 = 1 then 0 else m) % 10 > 3 then 0 else (if m / 10 = 1 then 0 else m) % 10)
        "th")
      = (if m = 11 ∨ m = 12 ∨ m = 13 then "th"
         else if m % 10 = 1 then "st"
         else if m % 10 = 2 then "nd"
         else if m % 10 = 3 then "rd"
         else "th") := by decide
  have h : n % 100 < 100 := Nat.mod_lt _ (by norm_num)
  have h10 : n % 10 = n % 100 % 10 := (Nat.mod_mod_of_dvd n (by norm_num)).symm
  simp only [get_ordinal]
  rw [h10]
  congr 1
  exact key (n % 100) h

/-- C8: split_paragraph returns its input unchanged, without failing, on
an empty text, on a width larger than the text length, and on a text with
no character of the whitespace set: in each case the loop exits before
performing any replacement. -/
theorem split_paragraph_degenerate (s : List Char) (width : Nat) (ws : List Char)
    (hw : 1 ≤ width)
    (hdeg : s = [] ∨ s.length < width ∨ ∀ c ∈ s, ws.contains c = false) :
    split_paragraph s width ws = s := by
  unfold split_paragraph
  rcases hdeg with h | h | h
  · subst h
    simp [splitLoop]
  · rw [splitLoop]
    rw [if_neg (by omega)]
  · rw [splitLoop]
    by_cases hidx : width - 1 < s.length
    · rw [if_pos hidx, findLastFrom_none s _ h]
    · rw [if_neg hidx]

/-- C8 witness: the theorem applied to a text shorter than the width, to
the empty text, and to a text with no whitespace character. -/
theorem split_paragraph_degenerate_witness :
    split_paragraph ( "abc".toList) 5 defaultWS = ( "abc".toList) ∧
    split_paragraph [] 3 defaultWS = [] ∧
    split_paragraph ( "abc".toList) 2 defaultWS = ( "abc".toList) :=
  ⟨split_paragraph_degenerate _ _ _ (by decide) (Or.inr (Or.inl (by decide))),
   split_paragraph_degenerate _ _ _ (by decide) (Or.inl rfl),
   split_paragraph_degenerate _ _ _ (by decide) (Or.inr (Or.inr (by decide)))⟩

/-- C9: begin_with called on the same string object twice short-circuits
to true via the address comparison, for the empty string as well; for
distinct objects an empty pattern against a non-empty subject, and an
empty subject, both answer false. -/
theorem begin_with_self_and_empty :
    (∀ (x : List Char) (sens : Bool), begin_with x x sens 0 true = true) ∧
    (∀ (s pre : List Char) (sens : Bool),
      (pre = [] ∧ s ≠ []) ∨ s = [] → begin_with s pre sens 0 false = false) := by
  constructor
  · intro x sens
    rfl
  · intro s pre sens h
    rcases h with ⟨hp, hs⟩ | hs
    · subst hp
      simp [begin_with, List.isEmpty_iff, hs]
    · subst hs
      simp [begin_with]

/-! The merge_paragraph loop: run-length facts, step lemmas, closed form. -/

theorem countRun_cons (c x : Char) (xs : List Char) :
    countRun c (x :: xs) = if x = c then countRun c xs + 1 else 0 := rfl

theorem countRun_drop_pred (c : Char) (l : List Char) (h : 0 < countRun c l) :
    l.drop (countRun c l - 1) = c :: l.drop (countRun c l) := by
  induction l with
  | nil => simp [countRun] at h
  | cons x xs ih =>
    rw [countRun_cons] at h ⊢
    by_cases hx : x = c
    · rw [if_pos hx] at h ⊢
      subst hx
      rcases Nat.eq_zero_or_pos (countRun x xs) with h0 | hpos
      · rw [h0]
        simp
      · have harith : countRun x xs + 1 - 1 = (countRun x xs - 1) + 1 := by omega
        rw [harith, List.drop_succ_cons, List.drop_succ_cons, ih hpos]
    · rw [if_neg hx] at h
      omega

theorem get_append_len (pre : List Char) (c : Char) (suf : List Char)
    (h : pre.length < (pre ++ c :: suf).length) :
    (pre ++ c :: suf).get ⟨pre.length, h⟩ = c := by
  have h1 : (pre ++ c :: suf)[pre.length]? = some c := by
    rw [List.getElem?_append_right (Nat.le_refl _)]
    simp
  have h2 : (pre ++ c :: suf)[pre.length]? = some ((pre ++ c :: suf).get ⟨pre.length, h⟩) := by
    simp
  rw [h1] at h2
  exact (Option.some_inj.mp h2).symm

theorem mergeLoop_stop (fuel : Nat) (s : List Char) (i : Nat) (h : ¬ i < s.length) :
    mergeLoop (fuel + 1) s i = s := by
  rw [mergeLoop, dif_neg h]

theorem mergeLoop_space (fuel : Nat) (s : List Char) (i : Nat) (h : i < s.length)
    (hc : s.get ⟨i, h⟩ = ' ') :
    mergeLoop (fuel + 1) s i =
      mergeLoop fuel (s.take i ++ ' ' :: s.drop (i + (1 + countRun ' ' (s.drop (i + 1)))))
        (i + 1) := by
  rw [mergeLoop, dif_pos h]
  simp only [List.get_eq_getElem] at hc
  simp [hc]

theorem mergeLoop_nl (fuel : Nat) (s : List Char) (i : Nat) (h : i < s.length)
    (hc : s.get ⟨i, h⟩ = '\n') :
    mergeLoop (fuel + 1) s i =
      (if 1 < 1 + countRun '\n' (s.drop (i + 1)) then
        mergeLoop fuel
          (s.take i ++ ' ' :: s.drop (i + (1 + countRun '\n' (s.drop (i + 1))) - 1)) (i + 2)
      else mergeLoop fuel (s.take i ++ ' ' :: s.drop (i + 1)) (i + 1)) := by
  rw [mergeLoop, dif_pos h]
  simp only [List.get_eq_getElem] at hc
  simp [hc]

theorem mergeLoop_other (fuel : Nat) (s : List Char) (i : Nat) (h : i < s.length)
    (hsp : s.get ⟨i, h⟩ ≠ ' ') (hnl : s.get ⟨i, h⟩ ≠ '\n') :
    mergeLoop (fuel + 1) s i = mergeLoop fuel s (i + 1) := by
  rw [mergeLoop, dif_pos h]
  simp only []
  rw [if_neg hsp, if_neg hnl]

theorem runTransform_nil : runTransform [] = [] := by
  rw [runTransform]

theorem runTransform_space (rest : List Char) :
    runTransform (' ' :: rest) = ' ' :: runTransform (rest.drop (countRun ' ' rest)) := by
  rw [runTransform]
  simp

theorem runTransform_nl (rest : List Char) :
    runTransform ('\n' :: rest) =
      (if countRun '\n' rest = 0 then ' ' :: runTransform rest
       else ' ' :: '\n' :: runTransform (rest.drop (countRun '\n' rest))) := by
  rw [runTransform]
  simp

theorem runTransform_other (c : Char) (rest : List Char) (h1 : c ≠ ' ') (h2 : c ≠ '\n') :
    runTransform (c :: rest) = c :: runTransform rest := by
  rw [runTransform]
  rw [if_neg h1, if_neg h2]

theorem mergeLoop_runs (fuel : Nat) : ∀ (suf pre : List Char), suf.length < fuel →
    mergeLoop fuel (pre ++ suf) pre.length = pre ++ runTransform suf := by
  induction fuel with
  | zero =>
    intro suf pre h
    omega
  | succ fuel ih =>
    intro suf pre hf
    cases suf with
    | nil =>
      rw [mergeLoop_stop _ _ _ (by simp)]
      rw [runTransform_nil]
    | cons c rest =>
      have hr : rest.length < fuel := by
        simp at hf
        omega
      have hlen : pre.length < (pre ++ c :: rest).length := by simp
      have hget : (pre ++ c :: rest).get ⟨pre.length, hlen⟩ = c := get_append_len ..
      have e1 : (pre ++ c :: rest).take pre.length = pre := List.take_left ..
      have e2 : (pre ++ c :: rest).drop (pre.length + 1) = rest := by
        rw [List.drop_append]
        rfl
      by_cases hsp : c = ' '
      · subst hsp
        rw [mergeLoop_space fuel _ _ hlen hget, e2, e1]
        have e3 : (pre ++ ' ' :: rest).drop (pre.length + (1 + countRun ' ' rest)) =
            rest.drop (countRun ' ' rest) := by
          rw [List.drop_append]
          rw [Nat.add_comm 1 (countRun ' ' rest), List.drop_succ_cons]
        rw [e3]
        have e4 : pre ++ ' ' :: rest.drop (countRun ' ' rest) =
            (pre ++ [' ']) ++ rest.drop (countRun ' ' rest) := by simp
        have e5 : pre.length + 1 = (pre ++ [' ']).length := by simp
        rw [e4, e5, ih _ _ (by simp; omega)]
        rw [runTransform_space]
        simp
      · by_cases hnl : c = '\n'
        · subst hnl
          rw [mergeLoop_nl fuel _ _ hlen hget, e2]
          by_cases hk : countRun '\n' rest = 0
          · rw [if_neg (by omega)]
            rw [e1]
            have e4 : pre ++ ' ' :: rest = (pre ++ [' ']) ++ rest := by simp
            have e5 : pre.length + 1 = (pre ++ [' ']).length := by simp
            rw [e4, e5, ih _ _ (by simpa using hr)]
            rw [runTransform_nl, if_pos hk]
            simp
          · rw [if_pos (by omega)]
            have harith : pre.length + (1 + countRun '\n' rest) - 1 =
                pre.length + countRun '\n' rest := by omega
            rw [harith, e1]
            have e3 : (pre ++ '\n' :: rest).drop (pre.length + countRun '\n' rest) =
                '\n' :: rest.drop (countRun '\n' rest) := by
              rw [List.drop_append]
              have hk1 : countRun '\n' rest = (countRun '\n' rest - 1) + 1 := by omega
              rw [hk1, List.drop_succ_cons, ← hk1]
              exact countRun_drop_pred _ _ (by omega)
            rw [e3]
            have e4 : pre ++ ' ' :: '\n' :: rest.drop (countRun '\n' rest) =
                (pre ++ [' ', '\n']) ++ rest.drop (countRun '\n' rest) := by simp
            have e5 : pre.length + 2 = (pre ++ [' ', '\n']).length := by simp
            rw [e4, e5, ih _ _ (by simp; omega)]
            rw [runTransform_nl, if_neg hk]
            simp
        · rw [mergeLoop_other fuel _ _ hlen (by rw [hget]; exact hsp) (by rw [hget]; exact hnl)]
          have e4 : pre ++ c :: rest = (pre ++ [c]) ++ rest := by simp
          have e5 : pre.length + 1 = (pre ++ [c]).length := by simp
          rw [e4, e5, ih _ _ (by simpa using hr)]
          rw [runTransform_other c rest hsp hnl]
          simp

/-- C2 counterexample: a maximal run of two newlines is replaced by a
space followed by a newline, not by a single newline, and a run at the
very first character is not touched at all (the scan starts at index 1):
merge_paragraph of a-newline-newline-b yields a-space-newline-b, and a
leading lone newline survives unchanged. -/
theorem merge_paragraph_counterexample :
    merge_paragraph ( "a\n\nb".toList) = ( "a \nb".toList) ∧
    merge_paragraph ( "a\n\nb".toList) ≠ ( "a\nb".toList) ∧
    merge_paragraph ( "\nA".toList) = ( "\nA".toList) := by
  refine ⟨by decide, by decide, by decide⟩

/-- C2 amended: merge_paragraph never alters the first character, and on
the rest of the string it maps each maximal run of spaces to one space,
each lone newline to one space, and each maximal run of two or more
newlines to a space followed by one newline, all other characters passing
through unchanged (runTransform). -/
theorem merge_paragraph_runs (s : List Char) :
    merge_paragraph s = s.take 1 ++ runTransform (s.drop 1) := by
  cases s with
  | nil =>
    simp [merge_paragraph, mergeLoop, runTransform_nil]
  | cons c rest =>
    have h := mergeLoop_runs ((c :: rest).length + 1) rest [c] (by simp only [List.length_cons]; omega)
    simpa [merge_paragraph] using h

/-! The capitalize loop: characterization. -/

theorem toNat_ofNat_valid (n : Nat) (h : n.isValidChar) : (Char.ofNat n).toNat = n := by
  rw [Char.ofNat, dif_pos h]
  rfl

theorem toNat_of_lower (c : Char) (h : 'a' ≤ c ∧ c ≤ 'z') :
    97 ≤ c.toNat ∧ c.toNat ≤ 122 := by
  obtain ⟨h1, h2⟩ := h
  rw [Char.le_def, UInt32.le_def, BitVec.le_def] at h1 h2
  exact ⟨h1, h2⟩

theorem asciiUpper_space_iff (c : Char) : asciiUpper c = ' ' ↔ c = ' ' := by
  unfold asciiUpper
  split
  · next h =>
    have hn := toNat_of_lower c h
    have hv : (c.toNat - 32).isValidChar := Or.inl (by omega)
    constructor
    · intro he
      exfalso
      have h2 := congrArg Char.toNat he
      rw [toNat_ofNat_valid _ hv] at h2
      have h32 : (' ' : Char).toNat = 32 := rfl
      rw [h32] at h2
      omega
    · intro he
      exfalso
      subst he
      have h32 : (' ' : Char).toNat = 32 := rfl
      omega
  · next h => exact Iff.rfl

theorem length_applyUpFrom (cond : Nat → Bool) (i : Nat) (l : List Char) :
    (applyUpFrom cond i l).length = l.length := by
  induction l generalizing i with
  | nil => rfl
  | cons c rest ih => simp [applyUpFrom, ih]

theorem getElem?_applyUpFrom (cond : Nat → Bool) (i : Nat) (l : List Char) (j : Nat) :
    (applyUpFrom cond i l)[j]? =
      l[j]?.map (fun c => if cond (i + j) then asciiUpper c else c) := by
  induction l generalizing i j with
  | nil => simp [applyUpFrom]
  | cons c rest ih =>
    cases j with
    | zero => simp [applyUpFrom]
    | succ j =>
      have harith : i + (j + 1) = (i + 1) + j := by omega
      simp [applyUpFrom, ih (i + 1) j, harith]

theorem applyUpFrom_congr (c1 c2 : Nat → Bool) (i : Nat) (l : List Char)
    (h : ∀ j, j < l.length → c1 (i + j) = c2 (i + j)) :
    applyUpFrom c1 i l = applyUpFrom c2 i l := by
  induction l generalizing i with
  | nil => rfl
  | cons c rest ih =>
    have h0 := h 0 (by simp)
    simp only [Nat.add_zero] at h0
    simp only [applyUpFrom, h0]
    congr 1
    apply ih
    intro j hj
    have hsh := h (j + 1) (by simp only [List.length_cons]; omega)
    have harith : i + (j + 1) = (i + 1) + j := by omega
    rwa [harith] at hsh

theorem applyUpFrom_all_false (cond : Nat → Bool) (i : Nat) (l : List Char)
    (h : ∀ j, cond j = false) : applyUpFrom cond i l = l := by
  induction l generalizing i with
  | nil => rfl
  | cons c rest ih => simp [applyUpFrom, h, ih]

theorem applyUpFrom_prev_space (cond : Nat → Bool) (s : List Char) (k : Nat) :
    ((applyUpFrom cond 0 s)[k]? = some ' ') ↔ (s[k]? = some ' ') := by
  rw [getElem?_applyUpFrom]
  cases hk : s[k]? with
  | none => simp
  | some c =>
    simp only [Option.map_some', Option.some_inj, Nat.zero_add]
    by_cases hc : cond k = true
    · rw [if_pos hc]
      exact asciiUpper_space_iff c
    · rw [if_neg hc]

theorem applyUpFrom_get_of_false (cond : Nat → Bool) (s : List Char) (k : Nat)
    (hc : cond k = false) : (applyUpFrom cond 0 s)[k]? = s[k]? := by
  rw [getElem?_applyUpFrom]
  cases s[k]? <;> simp [hc]

theorem applyUpFrom_set (s : List Char) (cA cB : Nat → Bool) (p : Nat) (hp : p < s.length)
    (hA : cA p = false) (hB : cB p = true) (hag : ∀ j, j ≠ p → cA j = cB j)
    (a : Char) (hpx : p < (applyUpFrom cA 0 s).length)
    (ha : a = asciiUpper ((applyUpFrom cA 0 s).get ⟨p, hpx⟩)) :
    (applyUpFrom cA 0 s).set p a = applyUpFrom cB 0 s := by
  have hgp : (applyUpFrom cA 0 s)[p]? = s[p]? := applyUpFrom_get_of_false cA s p hA
  have hg1 : (applyUpFrom cA 0 s)[p]? = some ((applyUpFrom cA 0 s).get ⟨p, hpx⟩) := by simp
  have hg2 : s[p]? = some (s.get ⟨p, hp⟩) := by simp
  rw [hg1, hg2] at hgp
  have hgv : (applyUpFrom cA 0 s).get ⟨p, hpx⟩ = s.get ⟨p, hp⟩ := Option.some_inj.mp hgp
  apply List.ext_getElem?
  intro j
  rw [List.getElem?_set]
  by_cases hj : p = j
  · subst hj
    rw [if_pos rfl, if_pos hpx]
    rw [getElem?_applyUpFrom, hg2]
    simp only [Option.map_some', Nat.zero_add, hB]
    rw [ha, hgv]
    simp
  · rw [if_neg hj]
    rw [getElem?_applyUpFrom, getElem?_applyUpFrom]
    have : cA (0 + j) = cB (0 + j) := by
      simp only [Nat.zero_add]
      exact hag j (fun he => hj he.symm)
    rw [this]

theorem trigBetween_succ (s : List Char) (a n : Nat) :
    trigBetween s a (n + 1) = (if isTrig s a then 1 else 0) + trigBetween s (a + 1) n := rfl

theorem trigBetween_head_pos (s : List Char) (a n : Nat) (ht : isTrig s a = true) (hn : 0 < n) :
    0 < trigBetween s a n := by
  cases n with
  | zero => omega
  | succ n =>
    rw [trigBetween_succ, if_pos ht]
    omega

theorem isTrig_iff (s : List Char) (pos : Nat) (hpos : pos < s.length) :
    isTrig s pos = true ↔
      ((pos = 0 ∧ asciiIsAlpha (s.get ⟨pos, hpos⟩)) ∨ (0 < pos ∧ s[pos - 1]? = some ' ')) := by
  unfold isTrig
  by_cases h0 : pos = 0
  · subst h0
    rw [if_pos rfl]
    have hx : s[0]? = some (s.get ⟨0, hpos⟩) := by simp
    rw [hx]
    simp
  · rw [if_neg h0]
    simp [h0, Nat.pos_of_ne_zero h0]

theorem capLoop_stop (fuel : Nat) (s : List Char) (pos cnt : Nat)
    (h : ¬(pos < s.length ∧ 0 < cnt)) : capLoop (fuel + 1) s pos cnt = s := by
  rw [capLoop, dif_neg h]

theorem capLoop_trig (fuel : Nat) (s : List Char) (pos cnt : Nat)
    (h : pos < s.length ∧ 0 < cnt)
    (ht : (pos = 0 ∧ asciiIsAlpha (s.get ⟨pos, h.1⟩)) ∨ (0 < pos ∧ s[pos - 1]? = some ' ')) :
    capLoop (fuel + 1) s pos cnt =
      (if cnt = 1 then s.set pos (asciiUpper (s.get ⟨pos, h.1⟩))
       else capLoop fuel (s.set pos (asciiUpper (s.get ⟨pos, h.1⟩))) (pos + 1) (cnt - 1)) := by
  rw [capLoop, dif_pos h, if_pos ht]

theorem capLoop_notrig (fuel : Nat) (s : List Char) (pos cnt : Nat)
    (h : pos < s.length ∧ 0 < cnt)
    (ht : ¬((pos = 0 ∧ asciiIsAlpha (s.get ⟨pos, h.1⟩)) ∨ (0 < pos ∧ s[pos - 1]? = some ' '))) :
    capLoop (fuel + 1) s pos cnt = capLoop fuel s (pos + 1) cnt := by
  rw [capLoop, dif_pos h, if_neg ht]

theorem capLoop_characterize (s0 : List Char) (fuel : Nat) :
    ∀ pos cnt, 0 < cnt → s0.length ≤ fuel + pos →
      capLoop fuel (applyUpFrom (fun i => isTrig s0 i && decide (i < pos)) 0 s0) pos cnt =
        applyUpFrom
          (fun i => isTrig s0 i &&
            (decide (i < pos) || decide (trigBetween s0 pos (i - pos) < cnt))) 0 s0 := by
  induction fuel with
  | zero =>
    intro pos cnt hc hlen
    rw [capLoop]
    apply applyUpFrom_congr
    intro j hj
    have hjp : j < pos := by omega
    simp [hjp]
  | succ fuel ih =>
    intro pos cnt hc hlen
    by_cases hpos : pos < s0.length
    · have hxlen : pos < (applyUpFrom (fun i => isTrig s0 i && decide (i < pos)) 0 s0).length := by
        rw [length_applyUpFrom]
        exact hpos
      have hgp : (applyUpFrom (fun i => isTrig s0 i && decide (i < pos)) 0 s0)[pos]? =
          s0[pos]? := applyUpFrom_get_of_false _ s0 pos (by simp)
      have hg1 : (applyUpFrom (fun i => isTrig s0 i && decide (i < pos)) 0 s0)[pos]? =
          some ((applyUpFrom (fun i => isTrig s0 i && decide (i < pos)) 0 s0).get
            ⟨pos, hxlen⟩) := by simp
      have hg2 : s0[pos]? = some (s0.get ⟨pos, hpos⟩) := by simp
      rw [hg1, hg2] at hgp
      have hget : (applyUpFrom (fun i => isTrig s0 i && decide (i < pos)) 0 s0).get
          ⟨pos, hxlen⟩ = s0.get ⟨pos, hpos⟩ := Option.some_inj.mp hgp
      by_cases htrig : isTrig s0 pos = true
      · have hcondx : (pos = 0 ∧ asciiIsAlpha
            ((applyUpFrom (fun i => isTrig s0 i && decide (i < pos)) 0 s0).get ⟨pos, hxlen⟩)) ∨
            (0 < pos ∧
              (applyUpFrom (fun i => isTrig s0 i && decide (i < pos)) 0 s0)[pos - 1]? =
                some ' ') := by
          rcases (isTrig_iff s0 pos hpos).mp htrig with ⟨h0, ha⟩ | ⟨h0, hsp⟩
          · exact Or.inl ⟨h0, by rw [hget]; exact ha⟩
          · exact Or.inr ⟨h0, (applyUpFrom_prev_space _ _ _).mpr hsp⟩
        rw [capLoop_trig fuel _ pos cnt ⟨hxlen, hc⟩ hcondx]
        have hset : (applyUpFrom (fun i => isTrig s0 i && decide (i < pos)) 0 s0).set pos
            (asciiUpper ((applyUpFrom (fun i => isTrig s0 i && decide (i < pos)) 0 s0).get
              ⟨pos, hxlen⟩)) =
            applyUpFrom (fun i => isTrig s0 i && decide (i < pos + 1)) 0 s0 := by
          apply applyUpFrom_set s0 _ _ pos hpos (by simp) (by simp [htrig]) ?_ _ hxlen rfl
          intro j hj
          have hdec : decide (j < pos) = decide (j < pos + 1) := decide_eq_decide.mpr (by omega)
          rw [hdec]
        by_cases hcnt1 : cnt = 1
        · rw [if_pos hcnt1, hset]
          subst hcnt1
          apply applyUpFrom_congr
          intro j hj
          simp only [Nat.zero_add]
          by_cases hjp : j < pos
          · simp [hjp, Nat.lt_succ_of_lt hjp]
          · by_cases hje : j = pos
            · simp [hje, htrig, trigBetween]
            · have hgt : pos < j := by omega
              have h1 : ¬ j < pos + 1 := by omega
              have h2 : ¬ trigBetween s0 pos (j - pos) < 1 := by
                have := trigBetween_head_pos s0 pos (j - pos) htrig (by omega)
                omega
              simp [hjp, h1, h2]
        · rw [if_neg hcnt1, hset]
          rw [ih (pos + 1) (cnt - 1) (by omega) (by omega)]
          apply applyUpFrom_congr
          intro j hj
          simp only [Nat.zero_add]
          by_cases hjp : j < pos
          · simp [hjp, Nat.lt_succ_of_lt hjp]
          · by_cases hje : j = pos
            · have h3 : trigBetween s0 pos 0 = 0 := rfl
              simp [hje, h3, hc]
            · have hgt : pos < j := by omega
              have hsplit : trigBetween s0 pos (j - pos) =
                  1 + trigBetween s0 (pos + 1) (j - (pos + 1)) := by
                have harith : j - pos = (j - (pos + 1)) + 1 := by omega
                rw [harith, trigBetween_succ, if_pos htrig]
              have h1 : ¬ j < pos + 1 := by omega
              have h2 : ¬ j < pos := by omega
              have hiff : (trigBetween s0 (pos + 1) (j - (pos + 1)) < cnt - 1) =
                  (trigBetween s0 pos (j - pos) < cnt) := propext (by rw [hsplit]; omega)
              simp [h1, h2, hiff]
      · have hcondx : ¬((pos = 0 ∧ asciiIsAlpha
            ((applyUpFrom (fun i => isTrig s0 i && decide (i < pos)) 0 s0).get ⟨pos, hxlen⟩)) ∨
            (0 < pos ∧
              (applyUpFrom (fun i => isTrig s0 i && decide (i < pos)) 0 s0)[pos - 1]? =
                some ' ')) := by
          intro hcond
          rcases hcond with ⟨h0, ha⟩ | ⟨h0, hsp⟩
          · exact htrig ((isTrig_iff s0 pos hpos).mpr (Or.inl ⟨h0, by rwa [hget] at ha⟩))
          · exact htrig
              ((isTrig_iff s0 pos hpos).mpr (Or.inr ⟨h0, (applyUpFrom_prev_space _ _ _).mp hsp⟩))
        rw [capLoop_notrig fuel _ pos cnt ⟨hxlen, hc⟩ hcondx]
        have hfalse : isTrig s0 pos = false := Bool.eq_false_iff.mpr htrig
        have hxeq : applyUpFrom (fun i => isTrig s0 i && decide (i < pos)) 0 s0 =
            applyUpFrom (fun i => isTrig s0 i && decide (i < pos + 1)) 0 s0 := by
          apply applyUpFrom_congr
          intro j hj
          simp only [Nat.zero_add]
          by_cases hje : j = pos
          · simp [hje, hfalse]
          · have hdec : decide (j < pos) = decide (j < pos + 1) := decide_eq_decide.mpr (by omega)
            rw [hdec]
        rw [hxeq, ih (pos + 1) cnt hc (by omega)]
        apply applyUpFrom_congr
        intro j hj
        simp only [Nat.zero_add]
        by_cases hjp : j < pos
        · simp [hjp, Nat.lt_succ_of_lt hjp]
        · by_cases hje : j = pos
          · simp [hje, hfalse]
          · have hgt : pos < j := by omega
            have hsplit : trigBetween s0 pos (j - pos) =
                trigBetween s0 (pos + 1) (j - (pos + 1)) := by
              have harith : j - pos = (j - (pos + 1)) + 1 := by omega
              rw [harith, trigBetween_succ, if_neg (by simp [hfalse])]
              omega
            have h1 : ¬ j < pos + 1 := by omega
            have h2 : ¬ j < pos := by omega
            simp [h1, h2, hsplit]
    · rw [capLoop_stop _ _ _ _ (by
        intro hcontra
        rw [length_applyUpFrom] at hcontra
        exact hpos hcontra.1)]
      apply applyUpFrom_congr
      intro j hj
      have hjp : j < pos := by omega
      simp [hjp]

/-- C10: for every positive count, capitalize uppercases exactly the
trigger positions whose rank among triggers is below the count, a trigger
being position 0 when alphabetic or any position directly preceded by a
space character, regardless of whether the character there is alphabetic,
and each trigger consumes the counter even when the conversion changes
nothing. -/
theorem capitalize_characterization (s : List Char) (cnt : Nat) (h : 0 < cnt) :
    capitalize s cnt = capSpec s cnt := by
  unfold capitalize capSpec
  by_cases hemp : s.isEmpty
  · rw [if_pos hemp]
    have hnil : s = [] := List.isEmpty_iff.mp hemp
    subst hnil
    rfl
  · rw [if_neg hemp, if_neg (by omega : ¬ cnt = 0)]
    have h0 := capLoop_characterize s (s.length + 1) 0 cnt h (by omega)
    have hx : applyUpFrom (fun i => isTrig s i && decide (i < 0)) 0 s = s :=
      applyUpFrom_all_false _ _ _ (by intro j; simp)
    rw [hx] at h0
    rw [h0]
    apply applyUpFrom_congr
    intro j hj
    simp

/-- C10 witness: the theorem applied at the string x-space-1-space-y with
count 2; the digit after the first space consumes the second occurrence,
so the trailing letter y stays lowercase. -/
theorem capitalize_characterization_witness :
    capitalize ( "x 1 y".toList) 2 = capSpec ( "x 1 y".toList) 2 ∧
    capitalize ( "x 1 y".toList) 2 = ( "X 1 y".toList) :=
  ⟨capitalize_characterization _ 2 (by decide), by decide⟩

/-! The split_paragraph loop: search lemmas and the simulation invariant. -/

theorem findLastFrom_found (s : List Char) (p : Char → Bool) :
    ∀ k j, findLastFrom s p k = some j →
      j < s.length ∧ ∃ c, s[j]? = some c ∧ p c = true := by
  intro k
  induction k with
  | zero =>
    intro j hj
    unfold findLastFrom at hj
    split at hj
    · next h =>
      split at hj
      · next hp =>
        cases hj
        exact ⟨h, s.get ⟨0, h⟩, by simp, hp⟩
      · cases hj
    · cases hj
  | succ k ih =>
    intro j hj
    unfold findLastFrom at hj
    split at hj
    · next h =>
      split at hj
      · next hp =>
        cases hj
        exact ⟨h, s.get ⟨k + 1, h⟩, by simp, hp⟩
      · exact ih j hj
    · exact ih j hj

theorem findLastFrom_self (s : List Char) (p : Char → Bool) (k : Nat) (c : Char)
    (hk : s[k]? = some c) (hp : p c = true) : findLastFrom s p k = some k := by
  have hklen : k < s.length := by
    rcases List.getElem?_eq_some_iff.mp hk with ⟨h, _⟩
    exact h
  have hgc : s.get ⟨k, hklen⟩ = c := by
    have h2 : s[k]? = some (s.get ⟨k, hklen⟩) := by simp
    rw [hk] at h2
    exact (Option.some_inj.mp h2).symm
  cases k with
  | zero =>
    unfold findLastFrom
    rw [dif_pos hklen, hgc, if_pos hp]
  | succ k =>
    unfold findLastFrom
    rw [dif_pos hklen, hgc, if_pos hp]

theorem findLastFrom_step2 (s : List Char) (p : Char → Bool) (k : Nat) (cp cq : Char)
    (hk1 : s[k + 1]? = some cp) (h1 : p cp = false)
    (hk0 : s[k]? = some cq) (h2 : p cq = true) :
    findLastFrom s p (k + 1) = some k := by
  have hklen : k + 1 < s.length := by
    rcases List.getElem?_eq_some_iff.mp hk1 with ⟨h, _⟩
    exact h
  have hgc : s.get ⟨k + 1, hklen⟩ = cp := by
    have hx : s[k + 1]? = some (s.get ⟨k + 1, hklen⟩) := by simp
    rw [hk1] at hx
    exact (Option.some_inj.mp hx).symm
  unfold findLastFrom
  rw [dif_pos hklen, hgc, if_neg (by rw [h1]; exact Bool.false_ne_true)]
  exact findLastFrom_self s p k cq hk0 h2

theorem findIdxFrom_at (s : List Char) (p : Char → Bool) (i : Nat) (ci cj : Char)
    (hi : s[i]? = some ci) (h1 : p ci = false)
    (hj : s[i + 1]? = some cj) (h2 : p cj = true) :
    findIdxFrom p s i = some (i + 1) := by
  have hilen : i < s.length := by
    rcases List.getElem?_eq_some_iff.mp hi with ⟨h, _⟩
    exact h
  have hjlen : i + 1 < s.length := by
    rcases List.getElem?_eq_some_iff.mp hj with ⟨h, _⟩
    exact h
  have hdi : s.drop i = s[i] :: s.drop (i + 1) := List.drop_eq_getElem_cons hilen
  have hdj : s.drop (i + 1) = s[i + 1] :: s.drop (i + 2) := List.drop_eq_getElem_cons hjlen
  have hgi : s[i] = ci := by
    have hx : s[i]? = some s[i] := by simp
    rw [hi] at hx
    exact (Option.some_inj.mp hx).symm
  have hgj : s[i + 1] = cj := by
    have hx : s[i + 1]? = some s[i + 1] := by simp
    rw [hj] at hx
    exact (Option.some_inj.mp hx).symm
  unfold findIdxFrom
  rw [hdi, hdj, hgi, hgj]
  rw [List.findIdx?_cons, if_neg (by rw [h1]; exact Bool.false_ne_true)]
  rw [List.findIdx?_cons, if_pos h2]

theorem set_eq_take_cons_drop (s : List Char) (p : Nat) (c : Char) (hp : p < s.length) :
    s.set p c = s.take p ++ c :: s.drop (p + 1) := by
  induction s generalizing p with
  | nil => simp at hp
  | cons x xs ih =>
    cases p with
    | zero => simp
    | succ p =>
      simp only [List.set_cons_succ, List.take_succ_cons, List.drop_succ_cons,
        List.cons_append]
      rw [ih p (by simp at hp; omega)]

theorem sim_replace (t s : List Char) (hsim : Sim t s) (p : Nat) (hp : p < s.length)
    (ht : t[p]? = some ' ') : Sim t (s.take p ++ '\n' :: s.drop (p + 1)) := by
  rw [← set_eq_take_cons_drop s p '\n' hp]
  constructor
  · rw [List.length_set]
    exact hsim.1
  · intro i hi
    rw [List.getElem?_set]
    by_cases hip : p = i
    · subst hip
      rw [if_pos rfl, if_pos hp]
      exact Or.inr ⟨ht, rfl⟩
    · rw [if_neg hip]
      exact hsim.2 i hi

theorem contains_defaultWS (c : Char) :
    defaultWS.contains c = true ↔ (c = ' ' ∨ c = '\t' ∨ c = '\r') := by
  simp [defaultWS]

theorem wsLike_of_ws (c : Char) (h : defaultWS.contains c = true) : wsLike c = true := by
  rcases (contains_defaultWS c).mp h with h | h | h <;> simp [wsLike, h]

theorem contains_false_of_nonWs (c : Char) (h : wsLike c = false) :
    defaultWS.contains c = false := by
  cases hc : defaultWS.contains c
  · rfl
  · have := wsLike_of_ws c hc
    rw [this] at h
    exact absurd h (by simp)

theorem sim_nonws_eq (t s : List Char) (hsim : Sim t s) (i : Nat) (hi : i < t.length)
    (a : Char) (ht : t[i]? = some a) (ha : wsLike a = false) : s[i]? = some a := by
  rcases hsim.2 i hi with he | ⟨hsp, _⟩
  · rw [he, ht]
  · rw [ht] at hsp
    have haa : a = ' ' := Option.some_inj.mp hsp
    rw [haa] at ha
    exact absurd ha (by simp [wsLike])

theorem splitLoop_sim (t : List Char) (hnice : NiceP t) :
    ∀ fuel s width index, Sim t s →
      Sim t (splitLoop fuel s defaultWS width index) := by
  intro fuel
  induction fuel with
  | zero =>
    intro s width index hsim
    exact hsim
  | succ fuel ih =>
    intro s width index hsim
    rw [splitLoop]
    by_cases hidx : index < s.length
    · rw [if_pos hidx]
      cases hfind : findLastFrom s (fun c => defaultWS.contains c) (index + 1) with
      | none => exact hsim
      | some p =>
        obtain ⟨hplen, cp, hcp, hcpws⟩ := findLastFrom_found s _ (index + 1) p hfind
        have hlent : s.length = t.length := hsim.1
        have hplent : p < t.length := by omega
        have hts : t[p]? = some ' ' ∧ s[p]? = some ' ' := by
          rcases hsim.2 p hplent with he | ⟨ht', hs'⟩
          · have ht2 : t[p]? = some cp := by rw [← he, hcp]
            rcases hnice p hplent with hnw | ⟨htsp, _⟩
            · exfalso
              rw [ht2] at hnw
              have hws := wsLike_of_ws cp hcpws
              simp [optNonWs, hws] at hnw
            · have hcpe : cp = ' ' := by
                rw [htsp] at ht2
                exact (Option.some_inj.mp ht2).symm
              exact ⟨htsp, by rw [hcp, hcpe]⟩
          · exfalso
            rw [hcp] at hs'
            have hnl : cp = '\n' := Option.some_inj.mp hs'
            rw [hnl] at hcpws
            simp [defaultWS] at hcpws
        obtain ⟨htp, hsp⟩ := hts
        rcases hnice p hplent with hnw | ⟨_, hp0, hp1, hprev, hnext⟩
        · exfalso
          rw [htp] at hnw
          simp [optNonWs, wsLike] at hnw
        have hprevlt : p - 1 < t.length := by omega
        obtain ⟨a, hta⟩ : ∃ a, t[p - 1]? = some a := by
          rw [List.getElem?_eq_getElem hprevlt]
          exact ⟨_, rfl⟩
        have hwa : wsLike a = false := by
          rw [hta] at hprev
          simpa [optNonWs] using hprev
        have hsa : s[p - 1]? = some a := sim_nonws_eq t s hsim (p - 1) hprevlt a hta hwa
        obtain ⟨b, htb⟩ : ∃ b, t[p + 1]? = some b := by
          rw [List.getElem?_eq_getElem hp1]
          exact ⟨_, rfl⟩
        have hwb : wsLike b = false := by
          rw [htb] at hnext
          simpa [optNonWs] using hnext
        have hsb : s[p + 1]? = some b := sim_nonws_eq t s hsim (p + 1) hp1 b htb hwb
        have e : p - 1 + 1 = p := by omega
        have hfln : findLastFrom s (fun c => !defaultWS.contains c) p = some (p - 1) := by
          have h0 := findLastFrom_step2 s (fun c => !defaultWS.contains c) (p - 1) ' ' a
            (by rw [e]; exact hsp) (by simp [defaultWS]) hsa
            (by
              show (!defaultWS.contains a) = true
              rw [contains_false_of_nonWs a hwa]
              rfl)
          rwa [e] at h0
        have hffn : findIdxFrom (fun c => !defaultWS.contains c) s (p - 1 + 1) =
            some (p + 1) := by
          rw [e]
          exact findIdxFrom_at s _ p ' ' b hsp (by simp [defaultWS]) hsb
            (by
              show (!defaultWS.contains b) = true
              rw [contains_false_of_nonWs b hwb]
              rfl)
        simp only [hfln, hffn]
        have e2 : p + 1 - (p - 1) - 1 = 1 := by omega
        simp only [e2, e]
        apply ih
        exact sim_replace t s hsim p (by omega) htp
    · rw [if_neg hidx]
      exact hsim

theorem countRun_eq_zero (c : Char) (l : List Char) (h : l[0]? ≠ some c) :
    countRun c l = 0 := by
  cases l with
  | nil => rfl
  | cons x xs =>
    rw [countRun_cons, if_neg]
    intro he
    exact h (by simp [he])

theorem sparse_shift (c : Char) (rest : List Char) (h : SparseP (c :: rest)) :
    SparseP rest := by
  intro i
  have hx := h (i + 1)
  simpa using hx

theorem wsSp_some_space : wsSp (some ' ') = true := rfl

theorem wsSp_some_nl : wsSp (some '\n') = true := rfl

theorem runTransform_sparse (s : List Char) (hs : SparseP s) :
    runTransform s = s.map unNl := by
  induction s with
  | nil => rw [runTransform_nil, List.map_nil]
  | cons c rest ih =>
    have hrest := sparse_shift c rest hs
    by_cases hc : c = ' '
    · subst hc
      have h0 := hs 0
      rw [List.getElem?_cons_zero, List.getElem?_cons_succ, wsSp_some_space,
        Bool.true_and] at h0
      have hcr : countRun ' ' rest = 0 := by
        apply countRun_eq_zero
        intro he
        rw [he, wsSp_some_space] at h0
        exact absurd h0 (by simp)
      rw [runTransform_space, hcr, List.drop_zero, ih hrest, List.map_cons]
      rfl
    · by_cases hnl : c = '\n'
      · subst hnl
        have h0 := hs 0
        rw [List.getElem?_cons_zero, List.getElem?_cons_succ, wsSp_some_nl,
          Bool.true_and] at h0
        have hcr : countRun '\n' rest = 0 := by
          apply countRun_eq_zero
          intro he
          rw [he, wsSp_some_nl] at h0
          exact absurd h0 (by simp)
        rw [runTransform_nl, if_pos hcr, ih hrest, List.map_cons]
        rfl
      · rw [runTransform_other c rest hc hnl, ih hrest, List.map_cons]
        have : unNl c = c := by
          unfold unNl
          rw [if_neg hnl]
        rw [this]

theorem sim_sparse (t s : List Char) (hnice : NiceP t) (hsim : Sim t s) : SparseP s := by
  intro i
  cases hw1 : wsSp s[i]? with
  | false => rw [Bool.false_and]
  | true =>
    have hisome : ∃ c, s[i]? = some c ∧ (c = ' ' ∨ c = '\n') := by
      cases hsi : s[i]? with
      | none =>
        rw [hsi] at hw1
        exact absurd hw1 (by simp [wsSp])
      | some c =>
        rw [hsi] at hw1
        simp [wsSp] at hw1
        exact ⟨c, rfl, hw1⟩
    obtain ⟨c, hsi, hcs⟩ := hisome
    have hilen : i < s.length := by
      rcases List.getElem?_eq_some_iff.mp hsi with ⟨h, _⟩
      exact h
    have hilent : i < t.length := by
      rw [← hsim.1]
      exact hilen
    have hti : t[i]? = some ' ' := by
      rcases hsim.2 i hilent with he | ⟨ht', _⟩
      · rw [he] at hsi
        rcases hnice i hilent with hnw | ⟨htsp, _⟩
        · exfalso
          rw [hsi] at hnw
          rcases hcs with h | h <;> rw [h] at hnw <;>
            exact absurd hnw (by simp [optNonWs, wsLike])
        · exact htsp
      · exact ht'
    rcases hnice i hilent with hnw | ⟨_, _, hi1, _, hnext⟩
    · exfalso
      rw [hti] at hnw
      exact absurd hnw (by simp [optNonWs, wsLike])
    obtain ⟨b, htb⟩ : ∃ b, t[i + 1]? = some b := by
      rw [List.getElem?_eq_getElem hi1]
      exact ⟨_, rfl⟩
    have hwb : wsLike b = false := by
      rw [htb] at hnext
      simpa [optNonWs] using hnext
    have hsb : s[i + 1]? = some b := sim_nonws_eq t s hsim (i + 1) hi1 b htb hwb
    have hw2 : wsSp s[i + 1]? = false := by
      rw [hsb]
      simp only [wsLike, Bool.or_eq_false_iff, decide_eq_false_iff_not] at hwb
      simp [wsSp, hwb.1.1.1, hwb.2]
    rw [hw2, Bool.and_false]

theorem sim_merge (t s : List Char) (hnice : NiceP t) (hsim : Sim t s) :
    merge_paragraph s = t := by
  rw [merge_paragraph_runs]
  have hsp := sim_sparse t s hnice hsim
  have hspd : SparseP (s.drop 1) := by
    intro i
    have hx := hsp (i + 1)
    have g1 : (s.drop 1)[i]? = s[1 + i]? := List.getElem?_drop s 1 i
    have g2 : (s.drop 1)[i + 1]? = s[1 + (i + 1)]? := List.getElem?_drop s 1 (i + 1)
    rw [g1, g2]
    have ea : 1 + i = i + 1 := by omega
    have eb : 1 + (i + 1) = i + 1 + 1 := by omega
    rw [ea, eb]
    exact hx
  rw [runTransform_sparse _ hspd]
  apply List.ext_getElem?
  intro i
  have hlent : s.length = t.length := hsim.1
  cases i with
  | zero =>
    cases hs0 : s with
    | nil =>
      have ht0 : t = [] := by
        have := hsim.1
        rw [hs0] at this
        exact List.length_eq_zero.mp this.symm
      rw [ht0]
      rfl
    | cons c rest =>
      have hlen0 : 0 < s.length := by rw [hs0]; simp
      have hlen0t : 0 < t.length := by omega
      rw [← hs0]
      have htake : (s.take 1).length = 1 := by
        rw [List.length_take]
        omega
      rw [List.getElem?_append_left (by rw [htake]; omega)]
      rw [List.getElem?_take]
      rw [if_pos (by omega)]
      rcases hsim.2 0 hlen0t with he | ⟨ht', _⟩
      · rw [he]
      · exfalso
        rcases hnice 0 hlen0t with hnw | ⟨_, h00, _⟩
        · rw [ht'] at hnw
          exact absurd hnw (by simp [optNonWs, wsLike])
        · omega
  | succ j =>
    by_cases hjt : j + 1 < t.length
    · have hjs : j + 1 < s.length := by omega
      have hslen0 : 0 < s.length := by omega
      have htake : (s.take 1).length = 1 := by
        rw [List.length_take]
        omega
      rw [List.getElem?_append_right (by rw [htake]; omega)]
      rw [htake]
      have harith : j + 1 - 1 = j := by omega
      rw [harith]
      rw [List.getElem?_map]
      have g1 : (s.drop 1)[j]? = s[1 + j]? := List.getElem?_drop s 1 j
      have ea : 1 + j = j + 1 := by omega
      rw [g1, ea]
      rcases hsim.2 (j + 1) hjt with he | ⟨ht', hs'⟩
      · rw [he]
        obtain ⟨a, hta⟩ : ∃ a, t[j + 1]? = some a := by
          rw [List.getElem?_eq_getElem hjt]
          exact ⟨_, rfl⟩
        rw [hta]
        simp only [Option.map_some']
        rcases hnice (j + 1) hjt with hnw | ⟨htsp, _⟩
        · rw [hta] at hnw
          have hwa : wsLike a = false := by simpa [optNonWs] using hnw
          have hann : a ≠ '\n' := by
            intro he2
            rw [he2] at hwa
            exact absurd hwa (by simp [wsLike])
          rw [show unNl a = a from by unfold unNl; rw [if_neg hann]]
        · rw [hta] at htsp
          have haa : a = ' ' := Option.some_inj.mp htsp
          rw [haa]
          rfl
      · rw [hs', ht']
        rfl
    · have h1 : t[j + 1]? = none := List.getElem?_eq_none (by omega)
      have h2 : s[j + 1]? = none := List.getElem?_eq_none (by omega)
      rw [h1]
      have htlen1 : (s.take 1).length ≤ j + 1 := by
        rw [List.length_take]
        omega
      rw [List.getElem?_append_right htlen1]
      rw [List.getElem?_map]
      have g1 : (s.drop 1)[j + 1 - (s.take 1).length]? = none := by
        apply List.getElem?_eq_none
        rw [List.length_drop]
        rw [List.length_take]
        omega
      rw [g1]
      rfl

/-- C1 counterexample: a text made of a two-space run followed by letters,
wider than any line break, passes through split_paragraph unchanged and
merge_paragraph leaves the leading run as two spaces, so the round trip
does not collapse every whitespace run to a single space as the claim
requires. -/
theorem round_trip_leading_spaces :
    merge_paragraph (split_paragraph ( "  ab".toList) 10 defaultWS) = ( "  ab".toList) ∧
    ( "  ab".toList) ≠ ( " ab".toList) := by
  constructor
  · decide
  · decide

/-- C1 amended: for every width of at least one and every text whose
whitespace characters are lone interior spaces with non-whitespace
characters on both sides (such a text equals its own whitespace-collapsed
form), merge_paragraph after split_paragraph returns the text exactly;
the two concrete instances of the claim hold as stated. -/
theorem round_trip_nice_texts :
    (∀ (t : List Char) (width : Nat), 1 ≤ width → NiceP t →
      merge_paragraph (split_paragraph t width defaultWS) = t) ∧
    split_paragraph ( "AAAA BBBB CCCC DDDD".toList) 4 defaultWS =
      ( "AAAA\nBBBB\nCCCC\nDDDD".toList) ∧
    merge_paragraph ( "AAAA\nBBBB\nCCCC\nDDDD".toList) =
      ( "AAAA BBBB CCCC DDDD".toList) := by
  refine ⟨fun t width hw hn => ?_, by decide, by decide⟩
  apply sim_merge t _ hn
  exact splitLoop_sim t hn (t.length + 1) t width (width - 1)
    ⟨rfl, fun i hi => Or.inl rfl⟩

/-- C1 witness: the round-trip theorem applied at the claim's own example
text and width. -/
theorem round_trip_nice_texts_witness :
    merge_paragraph (split_paragraph ( "AAAA BBBB CCCC DDDD".toList) 4 defaultWS) =
      ( "AAAA BBBB CCCC DDDD".toList) :=
  round_trip_nice_texts.1 _ 4 (by decide) (by decide)

/-- C9 witness: the theorem applied at the string ab for the self test and
for both empty-argument shapes. -/
theorem begin_with_self_and_empty_witness :
    begin_with ( "ab".toList) ( "ab".toList) false 0 true = true ∧
    begin_with ( "ab".toList) [] false 0 false = false ∧
    begin_with [] ( "ab".toList) false 0 false = false :=
  ⟨begin_with_self_and_empty.1 _ _,
   begin_with_self_and_empty.2 _ _ _ (Or.inl ⟨rfl, by decide⟩),
   begin_with_self_and_empty.2 _ _ _ (Or.inr rfl)⟩

end Ustr
